import Mathlib

/-!
Verification development for the `build-images` Cloudflare worker: a caching
proxy that lists a Cloudinary folder, normalizes each resource into a
presentation-ready image record, paginates the result and caches both the raw
listing snapshot and the derived pages in a key-value store.

The embedding below translates the TypeScript sources
(`src/worker.ts`, `src/utils.ts`, and the two unnamed revisions) into
executable Lean definitions:

* strings are modelled as `List Char` where character-level processing matters
  (JavaScript `parseInt`, URL parsing); percent-encoding of query strings is
  not modelled (all values in play are URL-safe);
* JavaScript floating point arithmetic in the two brightness classifiers is
  modelled with exact arithmetic (integers scaled by 1000, and `ℚ`); the
  comparisons proved about are far from the representability margins;
* the Cloudinary HTTP API and the key-value store are external collaborators:
  the folder listing and the per-resource detail endpoint are parameters
  (`current`, `oracle`), the store is an explicit state record, and fallible
  code returns `Except`/`Option`.
-/

set_option maxRecDepth 4000

namespace BuildImages

/-! ### Characters and JavaScript `parseInt(_, 16)` -/

/-- Whitespace skipped by JavaScript `parseInt` (the common code points,
compared by char code). -/
def isJsWhitespace (c : Char) : Bool :=
  c.toNat = 32 || c.toNat = 9 || c.toNat = 10 || c.toNat = 13 ||
  c.toNat = 11 || c.toNat = 12 || c.toNat = 160

/-- Value of a (case-insensitive) hexadecimal digit, by char code:
`0-9`, `a-f`, `A-F`. -/
def hexDigitVal (c : Char) : Option Nat :=
  if 48 ≤ c.toNat ∧ c.toNat ≤ 57 then some (c.toNat - 48)
  else if 97 ≤ c.toNat ∧ c.toNat ≤ 102 then some (c.toNat - 87)
  else if 65 ≤ c.toNat ∧ c.toNat ≤ 70 then some (c.toNat - 55)
  else none

/-- `true` when the char matches `/[0-9a-f]/i`. -/
def isHexDigitCI (c : Char) : Bool :=
  (hexDigitVal c).isSome

/-- Accumulate hex digits, most significant first. -/
def hexFold (ds : List Char) : Nat :=
  ds.foldl (fun acc c => acc * 16 + (hexDigitVal c).getD 0) 0

/-- Digits-and-prefix part of JavaScript `parseInt(s, 16)`: an optional
`0x`/`0X` prefix, then the longest run of hex digits; `none` models `NaN`. -/
def jsParseIntHexCore (t : List Char) : Option Nat :=
  let u := match t with
    | c1 :: c2 :: rest => if c1 = '0' ∧ (c2 = 'x' ∨ c2 = 'X') then rest else t
    | _ => t
  let ds := u.takeWhile isHexDigitCI
  if ds = [] then none else some (hexFold ds)

/-- Model of JavaScript `Number.parseInt(s, 16)`: skip leading whitespace,
read an optional sign, then the prefix/digit run; `none` models `NaN`. -/
def jsParseIntHex (s : List Char) : Option Int :=
  match s.dropWhile isJsWhitespace with
  | [] => none
  | c :: rest =>
    if c = '-' then (jsParseIntHexCore rest).map (fun n => -(n : Int))
    else if c = '+' then (jsParseIntHexCore rest).map (fun n => (n : Int))
    else (jsParseIntHexCore (c :: rest)).map (fun n => (n : Int))

/-- `hex.indexOf('#') === 0 ? hex.slice(1) : hex`: drop one leading `#`. -/
def stripHash (s : List Char) : List Char :=
  match s with
  | '#' :: rest => rest
  | other => other

/-! ### `utils.ts` brightness classifier (weighted luminance) -/

/-- `src/utils.ts` `invertColor`: strip one leading `#`, expand a 3-char
form by doubling each char, reject other lengths, parse the three
two-character slices with `parseInt(_, 16)` and compare the weighted
luminance `0.299 r + 0.587 g + 0.114 b > 186` (scaled by 1000 to stay in
exact integers); a `NaN` component makes the comparison false. -/
def invertColorChars (s : List Char) : Bool :=
  let h1 := stripHash s
  let h2 := match h1 with
    | [a, b, c] => [a, a, b, b, c, c]
    | other => other
  if h2.length ≠ 6 then false
  else
    match jsParseIntHex (h2.take 2), jsParseIntHex ((h2.drop 2).take 2),
        jsParseIntHex (h2.drop 4) with
    | some r, some g, some b => decide (186000 < 299 * r + 587 * g + 114 * b)
    | _, _, _ => false

/-- `invertColor` on `String`, as imported by `worker.ts`. -/
def invertColor (s : String) : Bool :=
  invertColorChars s.data

/-! ### `part_001` brightness classifier (HSL lightness) -/

/-- `part_001` `rgbToHsl`, with exact rational arithmetic in place of the
source's floats. -/
def rgbToHsl (r g b : ℚ) : ℚ × ℚ × ℚ :=
  let red := r / 255
  let green := g / 255
  let blue := b / 255
  let mx := max red (max green blue)
  let mn := min red (min green blue)
  let l := (mx + mn) / 2
  if mx = mn then (0, 0, l)
  else
    let d := mx - mn
    let s := if l > 1 / 2 then d / (2 - mx - mn) else d / (mx + mn)
    let h := if mx = red then (green - blue) / d + (if green < blue then 6 else 0)
      else if mx = green then (blue - red) / d + 2
      else (red - green) / d + 4
    (h / 6, s, l)

/-- The lightness test `rgbToHsl(r, g, b)[2] > 0.5` of `part_001`. -/
def hslLight (r g b : Int) : Bool :=
  decide ((rgbToHsl r g b).2.2 > 1 / 2)

/-- `part_001` `invertColor`: match `/^#?([a-f\d]{2})([a-f\d]{2})([a-f\d]{2})$/i`
(the optional `#` must be leading, then exactly six hex chars), convert to
HSL and compare the lightness against `0.5`. -/
def invertColorHslChars (s : List Char) : Bool :=
  let t := stripHash s
  match t with
  | [a, b, c, d, e, f] =>
    if isHexDigitCI a && isHexDigitCI b && isHexDigitCI c &&
        isHexDigitCI d && isHexDigitCI e && isHexDigitCI f then
      hslLight ((jsParseIntHex [a, b]).getD 0) ((jsParseIntHex [c, d]).getD 0)
        ((jsParseIntHex [e, f]).getD 0)
    else false
  | _ => false

/-! ### Well-formed hex colors (the specification's notion) -/

/-- A well-formed hex color: an optional leading `#` then exactly 3 or 6
case-insensitive hex digits. -/
def wellFormedHexChars (s : List Char) : Bool :=
  let t := stripHash s
  (t.length == 3 || t.length == 6) && t.all isHexDigitCI

/-- The RGB components a well-formed hex color denotes (a 3-digit form
doubles each digit); `none` when the shape is neither 3 nor 6 chars. -/
def specRGB (s : List Char) : Option (Nat × Nat × Nat) :=
  let t := stripHash s
  match t with
  | [a, b, c] => some (hexFold [a, a], hexFold [b, b], hexFold [c, c])
  | [a, b, c, d, e, f] => some (hexFold [a, b], hexFold [c, d], hexFold [e, f])
  | _ => none

/-! ### URL model (`new URL`, `URLSearchParams`) and `transformCloudinaryUrl`

The URL grammar modelled is `scheme "://" host path? query? fragment?` with
the components split exactly where the WHATWG parser splits them for the
`https` source URLs in play; percent-encoding is not modelled (the query
values in play are URL-safe). -/

/-- Split a list at the first occurrence of the pattern `pat`;
`none` when the pattern does not occur. -/
def splitAtSub (pat : List Char) : List Char → Option (List Char × List Char)
  | [] => none
  | c :: rest =>
    if pat.isPrefixOf (c :: rest) then some ([], (c :: rest).drop pat.length)
    else
      match splitAtSub pat rest with
      | some (l, r) => some (c :: l, r)
      | none => none

/-- JavaScript `String.split(sep)` for a one-character separator. -/
def splitOnChar (sep : Char) : List Char → List (List Char)
  | [] => [[]]
  | c :: rest =>
    match splitOnChar sep rest with
    | [] => [[c]]
    | h :: t => if c = sep then [] :: h :: t else (c :: h) :: t

/-- `URLSearchParams` parsing of a (already `?`-stripped) query string:
split on `&`, drop empty segments, split each segment at the first `=`. -/
def parseQuery (q : List Char) : List (List Char × List Char) :=
  (splitOnChar '&' q).filterMap fun part =>
    if part = [] then none
    else some (part.takeWhile (· != '='), (part.dropWhile (· != '=')).drop 1)

/-- `URLSearchParams.get`: first value under the key, `none` when absent. -/
def qGet (ps : List (List Char × List Char)) (k : List Char) : Option (List Char) :=
  (ps.find? fun p => p.1 == k).map (·.2)

/-- The components of a parsed URL that the transform reads. -/
structure UrlModel where
  scheme : List Char
  host : List Char
  path : List Char
  query : List (List Char × List Char)
deriving Repr, DecidableEq

/-- Model of `new URL(s)` for the URLs in play: drop the fragment, split the
scheme at the first `"://"`, end the host at the first `/` or `?`, end the
pathname at the first `?` (an absent pathname reads as `/`), and parse the
search string; `none` models the `TypeError` thrown on a string with no
scheme separator or an empty scheme/host. -/
def parseUrl (s : List Char) : Option UrlModel :=
  let t := s.takeWhile (· != '#')
  (splitAtSub "://".data t).bind fun pr =>
    if pr.1 = [] then none
    else
      let host := pr.2.takeWhile fun c => c != '/' && c != '?'
      if host = [] then none
      else
        let tl := pr.2.drop host.length
        let path := tl.takeWhile (· != '?')
        let path2 := if path = [] then ['/'] else path
        let query := (tl.dropWhile (· != '?')).drop 1
        some ⟨pr.1, host, path2, parseQuery query⟩

/-- `url.pathname.split('/').pop() || ''`: the last path segment. -/
def lastSeg (p : List Char) : List Char :=
  (p.reverse.takeWhile (· != '/')).reverse

/-- `fileName.replace(/\.[^/.]+$/, '.avif')`: replace a final extension (a
dot followed by one or more non-dot, non-slash chars at the end) by `.avif`;
a name without such an extension is kept as is. -/
def replaceExt (f : List Char) : List Char :=
  let rev := f.reverse
  let ext := rev.takeWhile fun c => c != '.' && c != '/'
  if ext ≠ [] ∧ (rev.drop ext.length).head? = some '.' then
    (rev.drop (ext.length + 1)).reverse ++ ".avif".data
  else f

/-- The decimal digit char for a value below ten. -/
def digitChar (d : Nat) : Char :=
  match d with
  | 0 => '0' | 1 => '1' | 2 => '2' | 3 => '3' | 4 => '4'
  | 5 => '5' | 6 => '6' | 7 => '7' | 8 => '8' | 9 => '9'
  | _ => '0'

/-- Digit expansion with explicit fuel, so that the recursion is structural
and evaluates inside the kernel; `fuel ≥ 1 + log10 n` suffices. -/
def natToCharsAux : Nat → Nat → List Char
  | 0, _ => []
  | fuel + 1, n =>
    if n < 10 then [digitChar n]
    else natToCharsAux fuel (n / 10) ++ [digitChar (n % 10)]

/-- Decimal digits of a natural number, most significant first
(`Number.prototype.toString` for naturals; `n + 1` fuel always suffices). -/
def natToChars (n : Nat) : List Char :=
  natToCharsAux (n + 1) n

/-- `size.toString()` for the integral sizes in play. -/
def intToChars (i : Int) : List Char :=
  if i < 0 then '-' :: natToChars i.natAbs else natToChars i.toNat

/-- `URLSearchParams.toString()`: `k=v` pairs joined by `&`. -/
def renderParams : List (List Char × List Char) → List Char
  | [] => []
  | [p] => p.1 ++ '=' :: p.2
  | p :: rest => p.1 ++ '=' :: p.2 ++ '&' :: renderParams rest

/-- The `h`/`w` parameters appended when `size` is truthy (`if (size)`:
absent, zero — and in the source also `NaN`, which `Option Int` does not
contain — are falsy). -/
def sizeParams (size : Option Int) : List (List Char × List Char) :=
  match size with
  | some n => if n = 0 then []
      else [("h".data, intToChars n), ("w".data, intToChars n)]
  | none => []

/-- The search-params block of the transform: the preserved `_a` parameter
first (insertion order of `params.set`), then the size parameters. -/
def transformParams (aParam : Option (List Char)) (size : Option Int) :
    List (List Char × List Char) :=
  (match aParam with
    | some v => [("_a".data, v)]
    | none => []) ++ sizeParams size

/-- `'?' + params.toString()` when the rendered params are nonempty
(`params.toString()` is nonempty exactly when the param list is). -/
def transformQuery (aParam : Option (List Char)) (size : Option Int) : List Char :=
  let ps := transformParams aParam size
  if ps = [] then [] else '?' :: renderParams ps

/-- The rewritten URL assembled by the transform. -/
def transformOutput (fileName : List Char) (aParam : Option (List Char))
    (size : Option Int) : List Char :=
  "https://images.slovyagin.com/".data ++ replaceExt fileName ++
    transformQuery aParam size

/-- `src/utils.ts` `transformCloudinaryUrl`: parse the source URL, keep the
last path segment with its extension rewritten to `.avif`, preserve the `_a`
query parameter, and append `h`/`w` parameters when `size` is truthy;
`none` models the `TypeError` of `new URL` on an unparsable source. -/
def transformCloudinaryUrlChars (originalUrl : List Char) (size : Option Int) :
    Option (List Char) :=
  (parseUrl originalUrl).map fun url =>
    transformOutput (lastSeg url.path) (qGet url.query "_a".data) size

/-- The transform on `String`, as imported by `worker.ts`. -/
def transformCloudinaryUrl (s : String) (size : Option Int) : Option String :=
  (transformCloudinaryUrlChars s.data size).map fun l => ⟨l⟩

/-- The host component a string parses to. -/
def hostOf (s : List Char) : Option (List Char) :=
  (parseUrl s).map UrlModel.host

/-- The pathname component a string parses to. -/
def pathOf (s : List Char) : Option (List Char) :=
  (parseUrl s).map UrlModel.path

/-- Whether a URL string carries both size query parameters `h` and `w`. -/
def hasSizeParams (s : List Char) : Bool :=
  ((parseUrl s).map fun u =>
    (qGet u.query "h".data).isSome && (qGet u.query "w".data).isSome).getD false

/-! ### Cloudinary resources and the image normalizer (`worker.ts`) -/

/-- The image size constants of `worker.ts`. -/
def MOBILE_SIZE : Int := 700

/-- Baseline viewport size. -/
def BASELINE_SIZE : Int := 900

/-- Large viewport size. -/
def LARGE_SIZE : Int := 1400

/-- Fixed page size. -/
def ITEMS_PER_PAGE : Nat := 40

/-- A resource descriptor as returned by the Cloudinary API (the fields the
worker reads; `context.custom.caption` and `image_metadata['Caption-Abstract']`
are flattened into the two caption fields, `Option` models an absent field). -/
structure CloudinaryResource where
  asset_id : String
  public_id : String
  width : Option Int
  height : Option Int
  colors : Option (List (List String))
  secure_url : String
  contextCaption : Option String
  metadataCaption : Option String
deriving Repr, DecidableEq

/-- The processed image record served to the frontend. -/
structure Image where
  backgroundColor : String
  caption : Option String
  color : String
  height : Int
  id : String
  mobileUrl : String
  largeUrl : String
  url : String
  width : Int
deriving Repr, DecidableEq

/-- Lower-case a string character by character (`String.prototype.toLowerCase`
on the ASCII data in play). -/
def strLower (s : String) : String :=
  String.map Char.toLower s

/-- `worker.ts` background pick:
`res.colors?.[3]?.[0]?.toLowerCase() ?? '#fff'`. -/
def bgColorWorker (colors : Option (List (List String))) : String :=
  match colors >>= (fun cs => cs.get? 3) >>= List.head? with
  | some c => strLower c
  | none => "#fff"

/-- `part_000` background pick:
`res.colors && res.colors.length > 3 ? res.colors[3][0].toLowerCase() : 'transparent'`;
`none` models the `TypeError` thrown when the fourth swatch is empty. -/
def bgColorPart000 (colors : Option (List (List String))) : Option String :=
  match colors with
  | some cs =>
    if cs.length > 3 then (cs.get? 3 >>= List.head?).map strLower
    else some "transparent"
  | none => some "transparent"

/-- `caption.replace(/, | /g, '-')`: the regex replaces each `", "` (tried
first at every position) or `" "` by a hyphen. -/
def slugChars : List Char → List Char
  | [] => []
  | ',' :: ' ' :: rest => '-' :: slugChars rest
  | ' ' :: rest => '-' :: slugChars rest
  | c :: rest => c :: slugChars rest

/-- `caption.toLowerCase().replace(/, | /g, '-')`. -/
def slugify (s : String) : String :=
  ⟨slugChars (s.data.map Char.toLower)⟩

/-- The image id: `[slug, assetId4].join('-')` with a caption, else
`p-<assetId4>`. -/
def mkId (caption : Option String) (assetId4 : String) : String :=
  match caption with
  | some c => slugify c ++ "-" ++ assetId4
  | none => "p-" ++ assetId4

/-- One loop body of `processResources` (`worker.ts`): build the `Image` for
a listing item from its detail-fetch result; `none` models a `TypeError`
from `new URL` inside `transformCloudinaryUrl`. -/
def mkImage (item res : CloudinaryResource) : Option Image :=
  let assetId4 : String := ⟨item.asset_id.data.take 4⟩
  let bg := bgColorWorker res.colors
  let caption := res.metadataCaption
  match transformCloudinaryUrl res.secure_url (some LARGE_SIZE),
      transformCloudinaryUrl res.secure_url (some MOBILE_SIZE),
      transformCloudinaryUrl res.secure_url (some BASELINE_SIZE) with
  | some lUrl, some mUrl, some bUrl =>
    some
      { backgroundColor := bg
        caption := caption
        color := if invertColor bg then "black" else "white"
        height := res.height.getD 0
        id := mkId caption assetId4
        largeUrl := lUrl
        mobileUrl := mUrl
        url := bUrl
        width := res.width.getD 0 }
  | _, _, _ => none

/-- An HTTP error (`HTTPException`): status and message. -/
structure HErr where
  status : Nat
  message : String
deriving Repr, DecidableEq

/-- The per-resource detail endpoint (`fetchResource`), as an external
oracle keyed by the id the worker passes (`item.asset_id`); `Except.error`
models a non-ok upstream response. -/
abbrev DetailOracle := String → Except HErr CloudinaryResource

/-- `worker.ts` `processResources`: fetch each item's detail sequentially and
build its image; the first failure rethrows as an HTTP 500 with the caught
error's message and aborts the batch. The second component is the trace of
ids actually passed to the detail fetch, in order. -/
def processResources (oracle : DetailOracle) :
    List CloudinaryResource → Except HErr (List Image) × List String
  | [] => (Except.ok [], [])
  | item :: rest =>
    match oracle item.asset_id with
    | Except.error e => (Except.error ⟨500, e.message⟩, [item.asset_id])
    | Except.ok res =>
      match mkImage item res with
      | none => (Except.error ⟨500, "Invalid URL"⟩, [item.asset_id])
      | some img =>
        match processResources oracle rest with
        | (Except.ok imgs, tr) => (Except.ok (img :: imgs), item.asset_id :: tr)
        | (Except.error e, tr) => (Except.error e, item.asset_id :: tr)

/-! ### The page cache and the `GET /` handler (`worker.ts`) -/

/-- The derived-page cache blob: a JSON object keyed by page number, modelled
as an association list with unique keys (`{...storedImages, [currentPage]:
images}` updates in place or appends). -/
abbrev PageCache := List (Int × List Image)

/-- Property lookup `storedImages[currentPage]`. -/
def pcLookup : PageCache → Int → Option (List Image)
  | [], _ => none
  | e :: rest, p => if e.1 = p then some e.2 else pcLookup rest p

/-- The spread merge `{...storedImages, [currentPage]: images}`: replace the
entry for the page in place, or append it. -/
def mergePage : PageCache → Int → List Image → PageCache
  | [], p, v => [(p, v)]
  | e :: rest, p, v => if e.1 = p then (p, v) :: rest else e :: mergePage rest p v

/-- The key-value store contents the handler touches: the folder snapshot
under `CLOUDINARY_RESOURCES_KV_KEY_NAME` and the page cache under
`IMAGES_KV_KEY_NAME`; `none` models a missing key (`get` returning `null`). -/
structure HState where
  resources : Option (List CloudinaryResource)
  images : Option PageCache
deriving Repr, DecidableEq

/-- The `pagination` block of the response envelope. -/
structure Pagination where
  current_page : Int
  per_page : Nat
  total_pages : Nat
  total_items : Nat
deriving Repr, DecidableEq

/-- The JSON body of a successful response. -/
structure HResponse where
  images : List Image
  pagination : Pagination
deriving Repr, DecidableEq

/-- What one request produces: the response (or the propagated
`HTTPException`), the key-value store contents after the request, and the
trace of detail-fetch calls. -/
structure HandlerResult where
  response : Except HErr HResponse
  state : HState
  fetched : List String
deriving Repr

/-- `Math.ceil(totalResources / ITEMS_PER_PAGE)`. -/
def totalPagesOf (n : Nat) : Nat :=
  (n + ITEMS_PER_PAGE - 1) / ITEMS_PER_PAGE

/-- `currentResources.resources.slice(startIndex, endIndex)` with
`startIndex = (currentPage - 1) * ITEMS_PER_PAGE` and
`endIndex = startIndex + ITEMS_PER_PAGE` (used only under the guard
`currentPage > 0`, where the start index is non-negative). -/
def pageSlice (l : List CloudinaryResource) (page : Int) : List CloudinaryResource :=
  (l.drop ((page - 1) * (ITEMS_PER_PAGE : Int)).toNat).take ITEMS_PER_PAGE

/-- The `GET /` handler of `worker.ts` after authentication and query
parsing: `current` is the upstream folder listing this request fetched
(`fetchFolder` succeeded), `oracle` the per-resource detail endpoint, `st`
the store contents, `page` the parsed `page` query parameter and `force`
whether `force=true` was passed.

Steps, exactly as in the source: compare the stored snapshot against the
current listing by structural equality (`JSON.stringify` equality on the
modelled values); on change or force, persist the listing and reset the page
cache to `{}`; re-read the page cache; serve the cached page when its key is
present (an empty array under the key is truthy, so it also counts as a
hit); otherwise, when the page lies in `[1, totalPages]`, process the page's
slice — a failure propagates after the invalidation writes but before the
write-back — and merge the result into the cache; finally answer with the
images and pagination metadata. -/
def handleRoot (current : List CloudinaryResource) (oracle : DetailOracle)
    (st : HState) (page : Int) (force : Bool) : HandlerResult :=
  let changed := st.resources ≠ some current
  let st1 : HState := if changed ∨ force = true then ⟨some current, some []⟩ else st
  let storedImages := st1.images
  let totalResources := current.length
  let totalPages := totalPagesOf totalResources
  let cached := storedImages.bind fun pc => pcLookup pc page
  if cached.isNone ∧ 0 < page ∧ page ≤ (totalPages : Int) then
    match processResources oracle (pageSlice current page) with
    | (Except.error e, tr) => ⟨Except.error e, st1, tr⟩
    | (Except.ok imgs, tr) =>
      ⟨Except.ok ⟨imgs, ⟨page, ITEMS_PER_PAGE, totalPages, totalResources⟩⟩,
        ⟨st1.resources, some (mergePage (storedImages.getD []) page imgs)⟩, tr⟩
  else
    ⟨Except.ok ⟨cached.getD [], ⟨page, ITEMS_PER_PAGE, totalPages, totalResources⟩⟩,
      st1, []⟩

/-- The reachability invariant of the stored page cache: whenever a snapshot
is stored, every cached page key lies in `[1, totalPages]` of that
snapshot. It holds for the empty store and is preserved by every request
(see `handleRoot_preserves_cacheKeysValid`). -/
def cacheKeysValid (st : HState) : Prop :=
  ∀ s, st.resources = some s →
    ∀ q l, pcLookup (st.images.getD []) q = some l →
      0 < q ∧ q ≤ (totalPagesOf s.length : Int)

/-! ### Concrete fixtures used by witnesses -/

/-- A concrete well-formed Cloudinary resource. -/
def wRes : CloudinaryResource :=
  { asset_id := "abcd1234", public_id := "pid", width := some 100,
    height := some 50, colors := none,
    secure_url := "https://res.cloudinary.com/demo/image/upload/sample.jpg",
    contextCaption := none, metadataCaption := some "Hello, World" }

/-- A concrete resource whose color list has fewer than 4 swatches. -/
def wResNC : CloudinaryResource :=
  { wRes with colors := some [] }

/-- A detail oracle that always answers with `wRes`. -/
def wOracle : DetailOracle := fun _ => Except.ok wRes

/-- A detail oracle that always fails with a 404. -/
def wOracleErr : DetailOracle := fun _ => Except.error ⟨404, "Not Found"⟩

/-- A concrete cached image record. -/
def wImg : Image :=
  { backgroundColor := "#fff", caption := none, color := "white", height := 0,
    id := "p-abcd", mobileUrl := "m", largeUrl := "l", url := "u", width := 0 }

/-! ## Supporting lemmas -/

theorem hex_char_code (c : Char) (h : isHexDigitCI c = true) :
    (48 ≤ c.toNat ∧ c.toNat ≤ 57) ∨ (97 ≤ c.toNat ∧ c.toNat ≤ 102) ∨
      (65 ≤ c.toNat ∧ c.toNat ≤ 70) := by
  unfold isHexDigitCI hexDigitVal at h
  split_ifs at h with h1 h2 h3
  · omega
  · omega
  · omega
  · simp at h

theorem jsParseIntHex_hexPair (a b : Char) (ha : isHexDigitCI a = true)
    (hb : isHexDigitCI b = true) :
    jsParseIntHex [a, b] = some ((hexFold [a, b] : Nat) : Int) := by
  have hca := hex_char_code a ha
  have hcb := hex_char_code b hb
  have hwa : isJsWhitespace a = false := by
    simp only [isJsWhitespace, Bool.or_eq_false_iff, decide_eq_false_iff_not]
    omega
  have hna : a ≠ '-' := by
    intro hEq; rw [hEq] at hca; exact absurd hca (by decide)
  have hpa : a ≠ '+' := by
    intro hEq; rw [hEq] at hca; exact absurd hca (by decide)
  have hxb : ¬(a = '0' ∧ (b = 'x' ∨ b = 'X')) := by
    rintro ⟨-, hb2 | hb2⟩ <;> rw [hb2] at hcb <;> exact absurd hcb (by decide)
  simp only [jsParseIntHex, jsParseIntHexCore, List.dropWhile_cons_of_neg,
    hwa, Bool.false_eq_true, not_false_eq_true, List.dropWhile_nil,
    if_neg hna, if_neg hpa, if_neg hxb, List.takeWhile_cons_of_pos, ha, hb,
    List.takeWhile_nil]
  simp

theorem list_length_eq_six {α : Type} {l : List α} (h : l.length = 6) :
    ∃ a b c d e f, l = [a, b, c, d, e, f] := by
  rcases l with _ | ⟨a, _ | ⟨b, _ | ⟨c, _ | ⟨d, _ | ⟨e, _ | ⟨f, _ | ⟨g, t⟩⟩⟩⟩⟩⟩⟩ <;>
    simp_all

/-- Claim C8 (amended): the brightness classifier `invertColor` of `utils.ts`
is total; on every well-formed 3- or 6-digit hex color (with or without a
leading `#`) it returns exactly the weighted-luminance comparison
`0.299 r + 0.587 g + 0.114 b > 186` on the color's components. (The original
claim's second half — that every malformed input returns `false` — is
refuted separately: `parseInt`'s leniency on the
two-character slices lets some malformed 6-character strings, e.g.
`"ffff f"`, return `true`.) -/
theorem invertColor_eval_of_wellFormed (s : List Char)
    (h : wellFormedHexChars s = true) :
    ∃ r g b : Nat, specRGB s = some (r, g, b) ∧
      invertColorChars s =
        decide (186000 < 299 * (r : Int) + 587 * (g : Int) + 114 * (b : Int)) := by
  simp only [wellFormedHexChars] at h
  rw [Bool.and_eq_true, Bool.or_eq_true] at h
  obtain ⟨hlen, hall⟩ := h
  simp only [List.all_eq_true] at hall
  simp only [invertColorChars, specRGB]
  generalize hT : stripHash s = t at hlen hall ⊢
  rcases hlen with h3 | h6
  · rw [beq_iff_eq] at h3
    obtain ⟨a, b, c, rfl⟩ := List.length_eq_three.mp h3
    have ha := hall a (by simp)
    have hb := hall b (by simp)
    have hc := hall c (by simp)
    refine ⟨hexFold [a, a], hexFold [b, b], hexFold [c, c], rfl, ?_⟩
    simp only [List.length_cons, List.length_nil, List.take_succ_cons,
      List.take_zero, List.drop_succ_cons, List.drop_zero]
    rw [if_neg (by norm_num)]
    rw [jsParseIntHex_hexPair a a ha ha, jsParseIntHex_hexPair b b hb hb,
      jsParseIntHex_hexPair c c hc hc]
  · rw [beq_iff_eq] at h6
    obtain ⟨a, b, c, d, e, f, rfl⟩ := list_length_eq_six h6
    have ha := hall a (by simp)
    have hb := hall b (by simp)
    have hc := hall c (by simp)
    have hd := hall d (by simp)
    have he := hall e (by simp)
    have hf := hall f (by simp)
    refine ⟨hexFold [a, b], hexFold [c, d], hexFold [e, f], rfl, ?_⟩
    simp only [List.length_cons, List.length_nil, List.take_succ_cons,
      List.take_zero, List.drop_succ_cons, List.drop_zero]
    rw [if_neg (by norm_num)]
    rw [jsParseIntHex_hexPair a b ha hb, jsParseIntHex_hexPair c d hc hd,
      jsParseIntHex_hexPair e f he hf]

theorem pcLookup_mergePage_self (pc : PageCache) (p : Int) (v : List Image) :
    pcLookup (mergePage pc p v) p = some v := by
  induction pc with
  | nil => simp [mergePage, pcLookup]
  | cons e rest ih =>
    by_cases h : e.1 = p
    · simp [mergePage, h, pcLookup]
    · simp [mergePage, h, pcLookup, ih]

theorem pcLookup_mergePage_other (pc : PageCache) (p q : Int) (v : List Image)
    (h : q ≠ p) : pcLookup (mergePage pc p v) q = pcLookup pc q := by
  induction pc with
  | nil => simp [mergePage, pcLookup, Ne.symm h]
  | cons e rest ih =>
    by_cases he : e.1 = p
    · simp [mergePage, he, pcLookup, Ne.symm h]
    · by_cases heq : e.1 = q
      · simp [mergePage, he, pcLookup, heq, h]
      · simp [mergePage, he, pcLookup, heq, ih]

theorem processResources_ok_trace (oracle : DetailOracle)
    (items : List CloudinaryResource)
    (h : ∀ item ∈ items, ∃ res img,
      oracle item.asset_id = Except.ok res ∧ mkImage item res = some img) :
    (∃ imgs, (processResources oracle items).1 = Except.ok imgs) ∧
    (processResources oracle items).2 = items.map (·.asset_id) := by
  induction items with
  | nil => exact ⟨⟨[], rfl⟩, rfl⟩
  | cons item rest ih =>
    obtain ⟨res, img, hor, hmk⟩ := h item (by simp)
    obtain ⟨⟨imgs, hok⟩, htr⟩ := ih (fun it hit => h it (by simp [hit]))
    have hpr : processResources oracle rest =
        (Except.ok imgs, rest.map (·.asset_id)) := by
      rw [Prod.ext_iff]; exact ⟨hok, htr⟩
    simp only [processResources, hor, hmk, hpr]
    exact ⟨⟨img :: imgs, by simp⟩, by simp⟩

/-- Claim C5: in the main revision (`worker.ts`), if the per-resource detail
fetch fails for the item at index `k` of a batch while every earlier item
processes cleanly, `processResources` aborts with an HTTP-500 error carrying
the caught message: no partial image list is produced, and the detail-fetch
trace stops at item `k` — no later item of the batch is ever fetched. -/
theorem processResources_failFast (oracle : DetailOracle)
    (items : List CloudinaryResource) (k : Nat) (e : HErr)
    (hk : k < items.length)
    (hfail : oracle (items.get ⟨k, hk⟩).asset_id = Except.error e)
    (hpre : ∀ i (hi : i < k), ∃ res img,
      oracle (items.get ⟨i, Nat.lt_trans hi hk⟩).asset_id = Except.ok res ∧
      mkImage (items.get ⟨i, Nat.lt_trans hi hk⟩) res = some img) :
    (processResources oracle items).1 = Except.error ⟨500, e.message⟩ ∧
    (processResources oracle items).2 = (items.take (k + 1)).map (·.asset_id) := by
  induction items generalizing k with
  | nil => simp at hk
  | cons item rest ih =>
    cases k with
    | zero =>
      simp only [List.get] at hfail
      simp [processResources, hfail]
    | succ k2 =>
      obtain ⟨res, img, hor, hmk⟩ := hpre 0 (Nat.succ_pos k2)
      simp only [List.get] at hor hmk hfail
      have hk2 : k2 < rest.length := by simpa using hk
      have ih2 := ih k2 hk2 hfail (fun i hi => hpre (i + 1) (by omega))
      obtain ⟨ih2a, ih2b⟩ := ih2
      have hpr : processResources oracle rest =
          (Except.error ⟨500, e.message⟩, (rest.take (k2 + 1)).map (·.asset_id)) := by
        rw [Prod.ext_iff]; exact ⟨ih2a, ih2b⟩
      simp only [processResources, hor, hmk, hpr]
      exact ⟨by simp, by simp⟩

theorem takeWhile_eq_self_of_all {p : Char → Bool} {l : List Char}
    (h : ∀ c ∈ l, p c = true) : l.takeWhile p = l := by
  induction l with
  | nil => rfl
  | cons c rest ih =>
    rw [List.takeWhile_cons_of_pos (h c (by simp))]
    rw [ih fun x hx => h x (by simp [hx])]

theorem takeWhile_append_stop {p : Char → Bool} {l1 l2 : List Char} {c : Char}
    (h1 : ∀ x ∈ l1, p x = true) (hc : p c = false) :
    (l1 ++ c :: l2).takeWhile p = l1 := by
  rw [List.takeWhile_append_of_pos h1,
    List.takeWhile_cons_of_neg (by simp [hc]), List.append_nil]

theorem dropWhile_append_stop {p : Char → Bool} {l1 l2 : List Char} {c : Char}
    (h1 : ∀ x ∈ l1, p x = true) (hc : p c = false) :
    (l1 ++ c :: l2).dropWhile p = c :: l2 := by
  rw [List.dropWhile_append_of_pos h1,
    List.dropWhile_cons_of_neg (by simp [hc])]

theorem splitAtSub_parts {pat t a b : List Char}
    (h : splitAtSub pat t = some (a, b)) : t = a ++ pat ++ b := by
  induction t generalizing a with
  | nil => simp [splitAtSub] at h
  | cons c rest ih =>
    rw [splitAtSub] at h
    by_cases hp : pat.isPrefixOf (c :: rest)
    · rw [if_pos hp] at h
      obtain ⟨rfl, rfl⟩ : a = [] ∧ (c :: rest).drop pat.length = b := by
        simpa using h
      have hpre : pat <+: c :: rest := by
        exact List.isPrefixOf_iff_prefix.mp hp
      obtain ⟨tail, htail⟩ := hpre
      simp [← htail, List.drop_left]
    · rw [if_neg hp] at h
      rcases hrec : splitAtSub pat rest with _ | ⟨l, r⟩
      · rw [hrec] at h; simp at h
      · rw [hrec] at h
        simp only [Option.some.injEq, Prod.mk.injEq] at h
        obtain ⟨rfl, rfl⟩ := h
        simp [ih hrec]

theorem splitOnChar_ne_nil (sep : Char) (l : List Char) :
    splitOnChar sep l ≠ [] := by
  cases l with
  | nil => simp [splitOnChar]
  | cons c rest =>
    rw [splitOnChar]
    rcases splitOnChar sep rest with _ | ⟨h, t⟩
    · simp
    · by_cases hc : c = sep <;> simp [hc]

theorem splitAtSub_boundary (l1 l2 : List Char) (h : ':' ∉ l1) :
    splitAtSub "://".data (l1 ++ "://".data ++ l2) = some (l1, l2) := by
  induction l1 with
  | nil =>
    show splitAtSub "://".data (':' :: '/' :: '/' :: l2) = some ([], l2)
    rw [splitAtSub]
    rw [if_pos (by simp [List.isPrefixOf])]
    simp
  | cons c rest ih =>
    have hc : c ≠ ':' := fun hEq => h (by rw [hEq]; exact List.mem_cons_self ':' rest)
    have hrest : ':' ∉ rest := fun hx => h (List.mem_cons_of_mem c hx)
    show splitAtSub "://".data (c :: (rest ++ "://".data ++ l2)) = some (c :: rest, l2)
    rw [splitAtSub]
    rw [if_neg (by simp [List.isPrefixOf, hc, Ne.symm hc]), ih hrest]

theorem splitOnChar_sepFree {sep : Char} {l : List Char} (h : sep ∉ l) :
    splitOnChar sep l = [l] := by
  induction l with
  | nil => rfl
  | cons c rest ih =>
    have hc : ¬c = sep := by
      intro hEq; rw [hEq] at h; exact h (List.mem_cons_self sep rest)
    have hrest : sep ∉ rest := fun hx => h (List.mem_cons_of_mem c hx)
    rw [splitOnChar, ih hrest]
    simp [hc]

theorem splitOnChar_append {sep : Char} {l1 l2 : List Char} (h : sep ∉ l1) :
    splitOnChar sep (l1 ++ sep :: l2) = l1 :: splitOnChar sep l2 := by
  induction l1 with
  | nil =>
    rw [List.nil_append, splitOnChar]
    rcases hs : splitOnChar sep l2 with _ | ⟨p, parts⟩
    · exact absurd hs (splitOnChar_ne_nil sep l2)
    · simp
  | cons c rest ih =>
    have hc : ¬c = sep := by
      intro hEq; rw [hEq] at h; exact h (List.mem_cons_self sep rest)
    have hrest : sep ∉ rest := fun hx => h (List.mem_cons_of_mem c hx)
    rw [List.cons_append, splitOnChar, ih hrest]
    simp [hc]

theorem splitOnChar_parts_sepFree {sep : Char} {l part : List Char}
    (h : part ∈ splitOnChar sep l) : sep ∉ part := by
  induction l generalizing part with
  | nil =>
    simp [splitOnChar] at h
    subst h; simp
  | cons c rest ih =>
    rcases hr : splitOnChar sep rest with _ | ⟨p, parts⟩
    · exact absurd hr (splitOnChar_ne_nil sep rest)
    · have heq : splitOnChar sep (c :: rest) =
          if c = sep then [] :: p :: parts else (c :: p) :: parts := by
        rw [splitOnChar, hr]
      rw [heq] at h
      by_cases hcs : c = sep
      · rw [if_pos hcs] at h
        rcases List.mem_cons.mp h with rfl | h2
        · simp
        · exact ih (hr ▸ h2)
      · rw [if_neg hcs] at h
        rcases List.mem_cons.mp h with rfl | h2
        · intro hmem
          rcases List.mem_cons.mp hmem with rfl | hmem2
          · exact hcs rfl
          · exact ih (hr ▸ List.mem_cons_self p parts) hmem2
        · exact ih (hr ▸ List.mem_cons_of_mem p h2)

theorem splitOnChar_parts_subset {sep : Char} {l part : List Char}
    (h : part ∈ splitOnChar sep l) : ∀ c ∈ part, c ∈ l := by
  induction l generalizing part with
  | nil =>
    simp [splitOnChar] at h
    subst h; simp
  | cons c rest ih =>
    rcases hr : splitOnChar sep rest with _ | ⟨p, parts⟩
    · exact absurd hr (splitOnChar_ne_nil sep rest)
    · have heq : splitOnChar sep (c :: rest) =
          if c = sep then [] :: p :: parts else (c :: p) :: parts := by
        rw [splitOnChar, hr]
      rw [heq] at h
      by_cases hcs : c = sep
      · rw [if_pos hcs] at h
        rcases List.mem_cons.mp h with rfl | h2
        · simp
        · intro x hx
          exact List.mem_cons_of_mem c (ih (hr ▸ h2) x hx)
      · rw [if_neg hcs] at h
        rcases List.mem_cons.mp h with rfl | h2
        · intro x hx
          rcases List.mem_cons.mp hx with rfl | hx2
          · simp
          · exact List.mem_cons_of_mem c
              (ih (hr ▸ List.mem_cons_self p parts) x hx2)
        · intro x hx
          exact List.mem_cons_of_mem c (ih (hr ▸ List.mem_cons_of_mem p h2) x hx)

theorem parseSegment (k v : List Char) (hk : '=' ∉ k) :
    (k ++ '=' :: v).takeWhile (· != '=') = k ∧
      ((k ++ '=' :: v).dropWhile (· != '=')).drop 1 = v := by
  have hpos : ∀ x ∈ k, (x != '=') = true := by
    intro x hx
    simp only [bne_iff_ne, ne_eq]
    intro hEq
    exact hk (hEq ▸ hx)
  constructor
  · exact takeWhile_append_stop hpos (by simp)
  · rw [dropWhile_append_stop hpos (by simp)]
    simp

theorem parseQuery_renderParams (ps : List (List Char × List Char))
    (h : ∀ p ∈ ps, p.1 ≠ [] ∧ '&' ∉ p.1 ∧ '=' ∉ p.1 ∧ '&' ∉ p.2) :
    parseQuery (renderParams ps) = ps := by
  induction ps with
  | nil => rfl
  | cons p rest ih =>
    obtain ⟨hk1, hk2, hk3, hv⟩ := h p (by simp)
    have hpart : '&' ∉ p.1 ++ '=' :: p.2 := by
      intro hmem
      rcases List.mem_append.mp hmem with hm | hm
      · exact hk2 hm
      · rcases List.mem_cons.mp hm with hEq | hm2
        · exact absurd hEq (by decide)
        · exact hv hm2
    cases rest with
    | nil =>
      show parseQuery (p.1 ++ '=' :: p.2) = [p]
      unfold parseQuery
      rw [splitOnChar_sepFree hpart]
      rw [List.filterMap_cons, if_neg (by simp)]
      rw [(parseSegment p.1 p.2 hk3).1, (parseSegment p.1 p.2 hk3).2]
      simp
    | cons p2 rest2 =>
      have hshape : renderParams (p :: p2 :: rest2) =
          (p.1 ++ '=' :: p.2) ++ '&' :: renderParams (p2 :: rest2) := by
        simp [renderParams]
      rw [hshape]
      unfold parseQuery
      rw [splitOnChar_append hpart]
      rw [List.filterMap_cons, if_neg (by simp)]
      rw [(parseSegment p.1 p.2 hk3).1, (parseSegment p.1 p.2 hk3).2]
      have ih2 := ih (fun x hx => h x (by simp [hx]))
      unfold parseQuery at ih2
      rw [ih2]

theorem digitChar_code (d : Nat) :
    48 ≤ (digitChar d).toNat ∧ (digitChar d).toNat ≤ 57 := by
  rcases d with _ | _ | _ | _ | _ | _ | _ | _ | _ | _ | d <;> simp [digitChar]

theorem natToCharsAux_digits (fuel : Nat) :
    ∀ n, ∀ c ∈ natToCharsAux fuel n, 48 ≤ c.toNat ∧ c.toNat ≤ 57 := by
  induction fuel with
  | zero => intro n c hc; simp [natToCharsAux] at hc
  | succ fuel ih =>
    intro n c hc
    rw [natToCharsAux] at hc
    split at hc
    · rcases List.mem_singleton.mp hc with rfl
      exact digitChar_code n
    · rcases List.mem_append.mp hc with hm | hm
      · exact ih (n / 10) c hm
      · rcases List.mem_singleton.mp hm with rfl
        exact digitChar_code (n % 10)

theorem natToChars_digits (n : Nat) :
    ∀ c ∈ natToChars n, 48 ≤ c.toNat ∧ c.toNat ≤ 57 :=
  natToCharsAux_digits (n + 1) n

theorem intToChars_chars (i : Int) :
    ∀ c ∈ intToChars i, c = '-' ∨ (48 ≤ c.toNat ∧ c.toNat ≤ 57) := by
  unfold intToChars
  split
  · intro c hc
    rcases List.mem_cons.mp hc with rfl | hm
    · exact Or.inl rfl
    · exact Or.inr (natToChars_digits _ c hm)
  · intro c hc
    exact Or.inr (natToChars_digits _ c hc)

theorem lastSeg_subset (p : List Char) : ∀ c ∈ lastSeg p, c ∈ p := by
  intro c hc
  unfold lastSeg at hc
  have h1 := List.mem_reverse.mp hc
  have h2 := (List.takeWhile_sublist _).mem h1
  exact List.mem_reverse.mp h2

theorem lastSeg_no_slash (p : List Char) : '/' ∉ lastSeg p := by
  intro h
  unfold lastSeg at h
  have h1 := List.mem_reverse.mp h
  have h2 := List.mem_takeWhile_imp h1
  simp at h2

theorem lastSeg_cons_slash (f : List Char) (h : '/' ∉ f) :
    lastSeg ('/' :: f) = f := by
  unfold lastSeg
  rw [List.reverse_cons]
  rw [show f.reverse ++ ['/'] = f.reverse ++ '/' :: [] from rfl]
  rw [takeWhile_append_stop ?hpos (by simp)]
  · exact List.reverse_reverse f
  case hpos =>
    intro x hx
    have hxf : x ∈ f := List.mem_reverse.mp hx
    simp only [bne_iff_ne, ne_eq]
    intro hEq
    exact h (hEq ▸ hxf)

theorem mem_replaceExt {f : List Char} {c : Char} (hc : c ∈ replaceExt f) :
    c ∈ f ∨ c ∈ ".avif".data := by
  simp only [replaceExt] at hc
  split at hc
  · rcases List.mem_append.mp hc with hm | hm
    · left
      have h1 := List.mem_reverse.mp hm
      have h2 := List.mem_of_mem_drop h1
      exact List.mem_reverse.mp h2
    · right; exact hm
  · left; exact hc

theorem replaceExt_avif (g : List Char) :
    replaceExt (g ++ ".avif".data) = g ++ ".avif".data := by
  have hrev : (g ++ ".avif".data).reverse = ['f', 'i', 'v', 'a'] ++ '.' :: g.reverse := by
    rw [List.reverse_append]
    rfl
  simp only [replaceExt]
  rw [hrev]
  rw [takeWhile_append_stop (by decide) (by decide)]
  rw [List.drop_left]
  rw [if_pos (by simp)]
  rw [show ['f', 'i', 'v', 'a'] ++ '.' :: g.reverse =
    ['f', 'i', 'v', 'a', '.'] ++ g.reverse from by simp]
  rw [List.drop_left' (by decide)]
  rw [List.reverse_reverse]

theorem replaceExt_idem (f : List Char) :
    replaceExt (replaceExt f) = replaceExt f := by
  by_cases h : (f.reverse.takeWhile fun c => c != '.' && c != '/') ≠ [] ∧
      (f.reverse.drop (f.reverse.takeWhile fun c => c != '.' && c != '/').length).head? =
        some '.'
  · have h1 : replaceExt f =
        (f.reverse.drop
          ((f.reverse.takeWhile fun c => c != '.' && c != '/').length + 1)).reverse ++
          ".avif".data := by
      simp only [replaceExt]
      rw [if_pos h]
    rw [h1, replaceExt_avif]
  · have h1 : replaceExt f = f := by
      simp only [replaceExt]
      rw [if_neg h]
    rw [h1]
    exact h1

theorem dropWhile_eq_nil_of_all {p : Char → Bool} {l : List Char}
    (h : ∀ c ∈ l, p c = true) : l.dropWhile p = [] := by
  induction l with
  | nil => rfl
  | cons c rest ih =>
    rw [List.dropWhile_cons_of_pos (h c (by simp))]
    exact ih fun x hx => h x (by simp [hx])

theorem parseUrl_built (f q : List Char)
    (hf : ∀ c ∈ f, c ≠ '/' ∧ c ≠ '?' ∧ c ≠ '#')
    (hq : q = [] ∨ ∃ q2, q = '?' :: q2 ∧ '#' ∉ q2) :
    parseUrl ("https://images.slovyagin.com/".data ++ f ++ q) =
      some ⟨"https".data, "images.slovyagin.com".data, '/' :: f,
        parseQuery (q.drop 1)⟩ := by
  have hqh : '#' ∉ q := by
    rcases hq with rfl | ⟨q2, rfl, hq2⟩
    · simp
    · intro hm
      rcases List.mem_cons.mp hm with hEq | hm2
      · exact absurd hEq (by decide)
      · exact hq2 hm2
  have hall : ∀ c ∈ "https://images.slovyagin.com/".data ++ f ++ q,
      (c != '#') = true := by
    intro c hc
    simp only [List.append_assoc, List.mem_append] at hc
    rcases hc with hm | hm | hm
    · revert hm; revert c; decide
    · simp only [bne_iff_ne, ne_eq]
      exact (hf c hm).2.2
    · simp only [bne_iff_ne, ne_eq]
      intro hEq
      exact hqh (hEq ▸ hm)
  have hshape : "https://images.slovyagin.com/".data ++ f ++ q =
      "https".data ++ "://".data ++
        ("images.slovyagin.com".data ++ '/' :: (f ++ q)) := by
    rw [List.append_assoc]
    rfl
  have hfpos : ∀ x ∈ f, (x != '?') = true := by
    intro x hx
    simp only [bne_iff_ne, ne_eq]
    exact (hf x hx).2.1
  simp only [parseUrl]
  rw [takeWhile_eq_self_of_all hall, hshape]
  rw [splitAtSub_boundary _ _ (by decide)]
  rw [Option.some_bind]
  rw [if_neg (by simp)]
  rw [takeWhile_append_stop (by decide) (by decide)]
  rw [if_neg (by simp)]
  rw [List.drop_left]
  rcases hq with rfl | ⟨q2, rfl, hq2⟩
  · rw [List.append_nil]
    have hpos : ∀ x ∈ '/' :: f, (x != '?') = true := by
      intro x hx
      rcases List.mem_cons.mp hx with rfl | hx2
      · decide
      · exact hfpos x hx2
    rw [takeWhile_eq_self_of_all hpos, dropWhile_eq_nil_of_all hpos]
    rw [if_neg (by simp)]
  · rw [show '/' :: (f ++ '?' :: q2) = ('/' :: f) ++ '?' :: q2 from by simp]
    have hpos : ∀ x ∈ '/' :: f, (x != '?') = true := by
      intro x hx
      rcases List.mem_cons.mp hx with rfl | hx2
      · decide
      · exact hfpos x hx2
    rw [takeWhile_append_stop hpos (by decide),
      dropWhile_append_stop hpos (by decide)]
    rw [if_neg (by simp)]

theorem qGet_some {ps : List (List Char × List Char)} {k v : List Char}
    (h : qGet ps k = some v) : ∃ p ∈ ps, p.2 = v := by
  unfold qGet at h
  cases hf : ps.find? fun p => p.1 == k with
  | none => rw [hf] at h; simp at h
  | some p =>
    rw [hf] at h
    simp only [Option.map_some', Option.some.injEq] at h
    exact ⟨p, List.mem_of_find?_eq_some hf, h⟩

theorem parseUrl_path_query_facts (s : List Char) (u : UrlModel)
    (h : parseUrl s = some u) :
    ('?' ∉ u.path) ∧ ('#' ∉ u.path) ∧
      (∀ p ∈ u.query, '&' ∉ p.2 ∧ '#' ∉ p.2) := by
  simp only [parseUrl] at h
  cases hsp : splitAtSub "://".data (s.takeWhile (· != '#')) with
  | none => rw [hsp] at h; simp at h
  | some pr =>
    rw [hsp, Option.some_bind] at h
    by_cases h1 : pr.1 = []
    · rw [if_pos h1] at h; simp at h
    rw [if_neg h1] at h
    by_cases h2 : (pr.2.takeWhile fun c => c != '/' && c != '?') = []
    · rw [if_pos h2] at h; simp at h
    rw [if_neg h2] at h
    simp only [Option.some.injEq] at h
    subst h
    have hmem2 : ∀ c ∈ pr.2, c ≠ '#' := by
      intro c hc hEq
      have hct : c ∈ s.takeWhile (· != '#') := by
        rw [splitAtSub_parts hsp]
        exact List.mem_append.mpr (Or.inr hc)
      have := List.mem_takeWhile_imp hct
      rw [hEq] at this
      simp at this
    constructor
    · intro hmem
      simp only at hmem
      split at hmem
      · simp at hmem
      · have := List.mem_takeWhile_imp hmem
        simp at this
    constructor
    · intro hmem
      simp only at hmem
      split at hmem
      · simp at hmem
      · have h3 := (List.takeWhile_sublist _).mem hmem
        have h4 := List.mem_of_mem_drop h3
        exact hmem2 _ h4 rfl
    · intro p hp
      simp only at hp
      have hq : ∀ c ∈ (List.drop 1
          ((pr.2.drop (pr.2.takeWhile fun c => c != '/' && c != '?').length).dropWhile
            (· != '?'))), c ∈ pr.2 := by
        intro c hc
        have h3 := List.mem_of_mem_drop hc
        have h4 := (List.dropWhile_sublist _).mem h3
        exact List.mem_of_mem_drop h4
      obtain ⟨part, hpart, hpeq⟩ := List.mem_filterMap.mp hp
      by_cases hpe : part = []
      · rw [if_pos hpe] at hpeq; simp at hpeq
      rw [if_neg hpe] at hpeq
      simp only [Option.some.injEq] at hpeq
      subst hpeq
      constructor
      · intro hmem
        have h3 := List.mem_of_mem_drop hmem
        have h4 := (List.dropWhile_sublist _).mem h3
        exact splitOnChar_parts_sepFree hpart h4
      · intro hmem
        have h3 := List.mem_of_mem_drop hmem
        have h4 := (List.dropWhile_sublist _).mem h3
        have h5 := splitOnChar_parts_subset hpart _ h4
        exact hmem2 _ (hq _ h5) rfl

theorem renderParams_mem {ps : List (List Char × List Char)} {c : Char}
    (hc : c ∈ renderParams ps) :
    (∃ p ∈ ps, c ∈ p.1 ∨ c ∈ p.2) ∨ c = '&' ∨ c = '=' := by
  induction ps with
  | nil => simp [renderParams] at hc
  | cons p rest ih =>
    cases rest with
    | nil =>
      rw [show renderParams [p] = p.1 ++ '=' :: p.2 from rfl] at hc
      rcases List.mem_append.mp hc with hm | hm
      · exact Or.inl ⟨p, by simp, Or.inl hm⟩
      · rcases List.mem_cons.mp hm with rfl | hm2
        · exact Or.inr (Or.inr rfl)
        · exact Or.inl ⟨p, by simp, Or.inr hm2⟩
    | cons p2 rest2 =>
      have hshape : renderParams (p :: p2 :: rest2) =
          (p.1 ++ '=' :: p.2) ++ '&' :: renderParams (p2 :: rest2) := by
        simp [renderParams]
      rw [hshape] at hc
      rcases List.mem_append.mp hc with hm | hm
      · rcases List.mem_append.mp hm with hm2 | hm2
        · exact Or.inl ⟨p, by simp, Or.inl hm2⟩
        · rcases List.mem_cons.mp hm2 with rfl | hm3
          · exact Or.inr (Or.inr rfl)
          · exact Or.inl ⟨p, by simp, Or.inr hm3⟩
      · rcases List.mem_cons.mp hm with rfl | hm2
        · exact Or.inr (Or.inl rfl)
        · rcases ih (by simpa using hm2) with ⟨p3, hp3, hx⟩ | hx
          · exact Or.inl ⟨p3, by simp [hp3], hx⟩
          · exact Or.inr hx

theorem transformParams_facts (a : Option (List Char)) (size : Option Int)
    (ha : ∀ v, a = some v → '&' ∉ v) :
    ∀ p ∈ transformParams a size,
      p.1 ≠ [] ∧ '&' ∉ p.1 ∧ '=' ∉ p.1 ∧ '&' ∉ p.2 := by
  intro p hp
  unfold transformParams at hp
  rcases List.mem_append.mp hp with hm | hm
  · cases hav : a with
    | none => rw [hav] at hm; simp at hm
    | some v =>
      rw [hav] at hm
      rcases List.mem_singleton.mp hm with rfl
      exact ⟨show "_a".data ≠ [] by decide, show '&' ∉ "_a".data by decide,
        show '=' ∉ "_a".data by decide, ha v hav⟩
  · cases size with
    | none => simp [sizeParams] at hm
    | some n =>
      simp only [sizeParams] at hm
      by_cases hn : n = 0
      · rw [if_pos hn] at hm; simp at hm
      rw [if_neg hn] at hm
      have hdig : '&' ∉ intToChars n := by
        intro hmem
        rcases intToChars_chars n _ hmem with hEq | hEq
        · exact absurd hEq (by decide)
        · revert hEq; decide
      rcases List.mem_cons.mp hm with rfl | hm2
      · exact ⟨show "h".data ≠ [] by decide, show '&' ∉ "h".data by decide,
          show '=' ∉ "h".data by decide, hdig⟩
      · rcases List.mem_singleton.mp hm2 with rfl
        exact ⟨show "w".data ≠ [] by decide, show '&' ∉ "w".data by decide,
          show '=' ∉ "w".data by decide, hdig⟩

theorem transformQuery_shape (a : Option (List Char)) (size : Option Int)
    (ha : ∀ v, a = some v → '&' ∉ v ∧ '#' ∉ v) :
    (transformQuery a size = [] ∨
      ∃ q2, transformQuery a size = '?' :: q2 ∧ '#' ∉ q2) ∧
    parseQuery ((transformQuery a size).drop 1) = transformParams a size := by
  by_cases hps : transformParams a size = []
  · unfold transformQuery
    rw [if_pos hps, hps]
    exact ⟨Or.inl rfl, rfl⟩
  · have hq2 : '#' ∉ renderParams (transformParams a size) := by
      intro hmem
      rcases renderParams_mem hmem with ⟨p, hp, hx | hx⟩ | hx | hx
      · unfold transformParams at hp
        rcases List.mem_append.mp hp with hm | hm
        · cases hav : a with
          | none => rw [hav] at hm; simp at hm
          | some v =>
            rw [hav] at hm
            rcases List.mem_singleton.mp hm with rfl
            exact absurd hx (show '#' ∉ "_a".data by decide)
        · cases size with
          | none => simp [sizeParams] at hm
          | some n =>
            simp only [sizeParams] at hm
            by_cases hn : n = 0
            · rw [if_pos hn] at hm; simp at hm
            rw [if_neg hn] at hm
            rcases List.mem_cons.mp hm with rfl | hm2
            · exact absurd hx (show '#' ∉ "h".data by decide)
            · rcases List.mem_singleton.mp hm2 with rfl
              exact absurd hx (show '#' ∉ "w".data by decide)
      · unfold transformParams at hp
        rcases List.mem_append.mp hp with hm | hm
        · cases hav : a with
          | none => rw [hav] at hm; simp at hm
          | some v =>
            rw [hav] at hm
            rcases List.mem_singleton.mp hm with rfl
            exact (ha v hav).2 hx
        · cases size with
          | none => simp [sizeParams] at hm
          | some n =>
            simp only [sizeParams] at hm
            by_cases hn : n = 0
            · rw [if_pos hn] at hm; simp at hm
            rw [if_neg hn] at hm
            have hdig : '#' ∉ intToChars n := by
              intro hmem2
              rcases intToChars_chars n _ hmem2 with hEq | hEq
              · exact absurd hEq (by decide)
              · revert hEq; decide
            rcases List.mem_cons.mp hm with rfl | hm2
            · exact hdig hx
            · rcases List.mem_singleton.mp hm2 with rfl
              exact hdig hx
      · exact absurd hx (by decide)
      · exact absurd hx (by decide)
    unfold transformQuery
    rw [if_neg hps]
    refine ⟨Or.inr ⟨renderParams (transformParams a size), rfl, hq2⟩, ?_⟩
    rw [List.drop_one, List.tail_cons]
    exact parseQuery_renderParams _ (transformParams_facts a size fun v hv => (ha v hv).1)

theorem qGet_cons_ne (k1 v : List Char) (ps : List (List Char × List Char))
    (k2 : List Char) (h : (k1 == k2) = false) :
    qGet ((k1, v) :: ps) k2 = qGet ps k2 := by
  unfold qGet
  rw [List.find?_cons]
  simp [h]

theorem qGet_cons_eq (k1 v : List Char) (ps : List (List Char × List Char))
    (k2 : List Char) (h : (k1 == k2) = true) :
    qGet ((k1, v) :: ps) k2 = some v := by
  unfold qGet
  rw [List.find?_cons]
  simp [h]

theorem qGet_transformParams_a (a : Option (List Char)) (size : Option Int) :
    qGet (transformParams a size) "_a".data = a := by
  have hsz : qGet (sizeParams size) "_a".data = none := by
    cases size with
    | none => rfl
    | some n =>
      by_cases hn : n = 0
      · simp only [sizeParams]; rw [if_pos hn]; rfl
      · simp only [sizeParams]; rw [if_neg hn]
        rw [qGet_cons_ne _ _ _ _ (by decide), qGet_cons_ne _ _ _ _ (by decide)]
        rfl
  cases a with
  | none => exact hsz
  | some v =>
    show qGet (("_a".data, v) :: sizeParams size) "_a".data = some v
    exact qGet_cons_eq _ _ _ _ (by decide)

theorem qGet_transformParams_size (a : Option (List Char)) (size : Option Int) :
    ((qGet (transformParams a size) "h".data).isSome &&
      (qGet (transformParams a size) "w".data).isSome) = true ↔
      ∃ n, size = some n ∧ n ≠ 0 := by
  have hify : ∀ k : List Char, ("_a".data == k) = false →
      qGet (transformParams a size) k = qGet (sizeParams size) k := by
    intro k hk
    cases a with
    | none => rfl
    | some v =>
      show qGet (("_a".data, v) :: sizeParams size) k = qGet (sizeParams size) k
      exact qGet_cons_ne _ _ _ _ hk
  rw [hify "h".data (by decide), hify "w".data (by decide)]
  cases size with
  | none => simp [sizeParams, qGet]
  | some n =>
    by_cases hn : n = 0
    · subst hn
      simp [sizeParams, qGet]
    · simp only [sizeParams]
      rw [if_neg hn]
      rw [qGet_cons_eq "h".data _ _ "h".data (by decide)]
      rw [qGet_cons_ne "h".data _ _ "w".data (by decide)]
      rw [qGet_cons_eq "w".data _ _ "w".data (by decide)]
      simp only [Option.isSome_some, Bool.and_self]
      constructor
      · intro _
        exact ⟨n, rfl, hn⟩
      · intro _
        trivial

theorem transform_output_parse (f0 : List Char) (a : Option (List Char))
    (size : Option Int)
    (hf : ∀ c ∈ replaceExt f0, c ≠ '/' ∧ c ≠ '?' ∧ c ≠ '#')
    (ha : ∀ v, a = some v → '&' ∉ v ∧ '#' ∉ v) :
    parseUrl (transformOutput f0 a size) =
      some ⟨"https".data, "images.slovyagin.com".data, '/' :: replaceExt f0,
        transformParams a size⟩ := by
  obtain ⟨hqs, hpq⟩ := transformQuery_shape a size ha
  have h1 := parseUrl_built (replaceExt f0) (transformQuery a size) hf hqs
  rw [hpq] at h1
  exact h1

theorem replaceExt_lastSeg_facts (u : UrlModel) (s : List Char)
    (hp : parseUrl s = some u) :
    ∀ c ∈ replaceExt (lastSeg u.path), c ≠ '/' ∧ c ≠ '?' ∧ c ≠ '#' := by
  obtain ⟨hpq1, hpq2, -⟩ := parseUrl_path_query_facts s u hp
  intro c hc
  rcases mem_replaceExt hc with hm | hm
  · refine ⟨?_, ?_, ?_⟩
    · intro hEq; exact lastSeg_no_slash u.path (hEq ▸ hm)
    · intro hEq; exact hpq1 (hEq ▸ lastSeg_subset u.path c hm)
    · intro hEq; exact hpq2 (hEq ▸ lastSeg_subset u.path c hm)
  · have havif : ∀ x ∈ ".avif".data, x ≠ '/' ∧ x ≠ '?' ∧ x ≠ '#' := by decide
    exact havif c hm

/-- Claim C9: for every source URL the transform accepts, the output's host
is the rewritten `images.slovyagin.com`; re-applying the transform to its
own output succeeds and leaves the rewritten host and path unchanged
(idempotence of the host/path rewrite); and the output carries the `h`/`w`
size query parameters exactly when the size argument is non-null and
non-zero. -/
theorem transform_host_stable_and_size_params (s o : List Char)
    (size size2 : Option Int)
    (h : transformCloudinaryUrlChars s size = some o) :
    hostOf o = some "images.slovyagin.com".data ∧
    (hasSizeParams o = true ↔ ∃ n, size = some n ∧ n ≠ 0) ∧
    ∃ o2, transformCloudinaryUrlChars o size2 = some o2 ∧
      hostOf o2 = hostOf o ∧ pathOf o2 = pathOf o := by
  unfold transformCloudinaryUrlChars at h
  cases hp : parseUrl s with
  | none => rw [hp] at h; simp at h
  | some u =>
    rw [hp] at h
    simp only [Option.map_some', Option.some.injEq] at h
    obtain ⟨hpq1, hpq2, hpq3⟩ := parseUrl_path_query_facts s u hp
    have ha : ∀ v, qGet u.query "_a".data = some v → '&' ∉ v ∧ '#' ∉ v := by
      intro v hv
      obtain ⟨p, hpmem, hpv⟩ := qGet_some hv
      exact hpv ▸ hpq3 p hpmem
    have hf := replaceExt_lastSeg_facts u s hp
    have hparse : parseUrl o = some ⟨"https".data, "images.slovyagin.com".data,
        '/' :: replaceExt (lastSeg u.path),
        transformParams (qGet u.query "_a".data) size⟩ := by
      rw [← h]
      exact transform_output_parse _ _ _ hf ha
    refine ⟨?_, ?_, ?_⟩
    · unfold hostOf
      rw [hparse]
      rfl
    · unfold hasSizeParams
      rw [hparse]
      simp only [Option.map_some', Option.getD_some]
      exact qGet_transformParams_size _ size
    · have hslash : '/' ∉ replaceExt (lastSeg u.path) := fun hm => (hf _ hm).1 rfl
      have hlast : lastSeg ('/' :: replaceExt (lastSeg u.path)) =
          replaceExt (lastSeg u.path) := lastSeg_cons_slash _ hslash
      have hf2 : ∀ c ∈ replaceExt (replaceExt (lastSeg u.path)),
          c ≠ '/' ∧ c ≠ '?' ∧ c ≠ '#' := by
        rw [replaceExt_idem]; exact hf
      have ho2parse : parseUrl (transformOutput (replaceExt (lastSeg u.path))
          (qGet u.query "_a".data) size2) =
          some ⟨"https".data, "images.slovyagin.com".data,
            '/' :: replaceExt (replaceExt (lastSeg u.path)),
            transformParams (qGet u.query "_a".data) size2⟩ :=
        transform_output_parse _ _ _ hf2 ha
      rw [replaceExt_idem] at ho2parse
      refine ⟨transformOutput (replaceExt (lastSeg u.path))
        (qGet u.query "_a".data) size2, ?_, ?_, ?_⟩
      · unfold transformCloudinaryUrlChars
        rw [hparse]
        simp only [Option.map_some', Option.some.injEq]
        simp only [hlast]
        rw [show qGet (transformParams (qGet u.query ['_', 'a']) size) ['_', 'a'] =
          qGet u.query ['_', 'a'] from qGet_transformParams_a _ size]
      · unfold hostOf
        rw [ho2parse, hparse]
        rfl
      · unfold pathOf
        rw [ho2parse, hparse]
        rfl

/-- Claim C1: whenever the stored snapshot differs in any way from the
current upstream listing (including `none`, additions, removals and
reorderings — structural inequality), or the request carries `force=true`,
the handler persists the new listing as the snapshot, and after the request
the derived page cache holds at most the freshly recomputed requested page —
every entry that survives is the requested page recomputed from the new
listing by `processResources`, so a previously cached page is never served
against the changed listing. -/
theorem invalidation_resets_cache (current : List CloudinaryResource)
    (oracle : DetailOracle) (st : HState) (page : Int) (force : Bool)
    (h : st.resources ≠ some current ∨ force = true) :
    (handleRoot current oracle st page force).state.resources = some current ∧
    (∀ q l,
      pcLookup ((handleRoot current oracle st page force).state.images.getD []) q =
        some l →
      q = page ∧ (processResources oracle (pageSlice current page)).1 = Except.ok l) ∧
    (∀ res, (handleRoot current oracle st page force).response = Except.ok res →
      res.images = [] ∨
        (processResources oracle (pageSlice current page)).1 = Except.ok res.images) := by
  simp only [handleRoot]
  rw [if_pos h]
  simp only [pcLookup, Option.some_bind, Option.isNone_none, true_and]
  by_cases hpage : 0 < page ∧ page ≤ ((totalPagesOf current.length : Nat) : Int)
  · rw [if_pos hpage]
    rcases hpr : processResources oracle (pageSlice current page) with ⟨res1, tr⟩
    cases res1 with
    | error e =>
      refine ⟨rfl, ?_, ?_⟩
      · intro q l hl
        simp [pcLookup] at hl
      · intro res hres
        simp at hres
    | ok imgs =>
      refine ⟨rfl, ?_, ?_⟩
      · intro q l hl
        simp only [Option.getD_some] at hl
        rw [show mergePage [] page imgs = [(page, imgs)] from rfl] at hl
        simp only [pcLookup] at hl
        split at hl
        · simp only [Option.some.injEq] at hl
          subst hl
          refine ⟨by omega, rfl⟩
        · simp [pcLookup] at hl
      · intro res hres
        simp only [Except.ok.injEq] at hres
        subst hres
        right
        rfl
  · rw [if_neg hpage]
    refine ⟨rfl, ?_, ?_⟩
    · intro q l hl
      simp [pcLookup] at hl
    · intro res hres
      simp only [Except.ok.injEq] at hres
      subst hres
      left
      rfl

/-- Claim C2: with no force flag and no upstream change, if the derived page
cache holds an entry for the requested page, the handler returns exactly the
stored images, performs no per-resource detail fetch (empty fetch trace, so
no normalization runs), and leaves the store untouched — hence a second
request for the same page returns identical data. -/
theorem cache_hit_returns_verbatim (current : List CloudinaryResource)
    (oracle : DetailOracle) (st : HState) (page : Int) (l : List Image)
    (hres : st.resources = some current)
    (hhit : st.images.bind (fun pc => pcLookup pc page) = some l) :
    handleRoot current oracle st page false =
      ⟨Except.ok ⟨l, ⟨page, ITEMS_PER_PAGE, totalPagesOf current.length,
        current.length⟩⟩, st, []⟩ := by
  simp only [handleRoot]
  have hst1 : (if st.resources ≠ some current ∨ false = true then
      (⟨some current, some []⟩ : HState) else st) = st := if_neg (by simp [hres])
  rw [hst1, hhit]
  have hcond : ¬((some l).isNone = true ∧ 0 < page ∧
      page ≤ ((totalPagesOf current.length : Nat) : Int)) := by simp
  rw [if_neg hcond]
  rfl

/-- Claim C3: for every requested page outside `[1, totalPages]` (in
particular page 0 and page `totalPages + 1`), under the reachability
invariant `cacheKeysValid` (which holds initially and is preserved by every
request, see `handleRoot_preserves_cacheKeysValid`), the handler answers
with an empty image list and performs no per-resource detail fetch. -/
theorem out_of_range_page_empty (current : List CloudinaryResource)
    (oracle : DetailOracle) (st : HState) (page : Int) (force : Bool)
    (hInv : cacheKeysValid st)
    (hpage : page < 1 ∨ (totalPagesOf current.length : Int) < page) :
    (handleRoot current oracle st page force).response =
      Except.ok ⟨[], ⟨page, ITEMS_PER_PAGE, totalPagesOf current.length,
        current.length⟩⟩ ∧
    (handleRoot current oracle st page force).fetched = [] := by
  have hpneg : ¬(0 < page ∧ page ≤ ((totalPagesOf current.length : Nat) : Int)) := by
    rintro ⟨h1, h2⟩
    rcases hpage with h3 | h3 <;> omega
  simp only [handleRoot]
  by_cases hc : st.resources ≠ some current ∨ force = true
  · rw [if_pos hc]
    simp only [pcLookup, Option.some_bind, Option.isNone_none, true_and]
    rw [if_neg hpneg]
    exact ⟨rfl, rfl⟩
  · rw [if_neg hc]
    push_neg at hc
    obtain ⟨hres, -⟩ := hc
    cases hcache : st.images.bind (fun pc => pcLookup pc page) with
    | some l =>
      exfalso
      have hl : pcLookup (st.images.getD []) page = some l := by
        cases hsi : st.images with
        | none => rw [hsi] at hcache; simp at hcache
        | some pc =>
          rw [hsi] at hcache
          simpa using hcache
      have := hInv current hres page l hl
      rcases hpage with h3 | h3 <;> omega
    | none =>
      have hcond2 : ¬((none : Option (List Image)).isNone = true ∧ 0 < page ∧
          page ≤ ((totalPagesOf current.length : Nat) : Int)) := by
        rintro ⟨-, h2⟩
        exact hpneg h2
      rw [if_neg hcond2]
      exact ⟨rfl, rfl⟩

/-- Claim C6: for an upstream listing of exactly 85 resources and the fixed
page size 40, a request for page 2 with no cached entry invokes the
detail fetch exactly on the resources at listing indices 40 through 79 (the
40-element slice), and the response reports `total_pages = 3` and
`total_items = 85`. -/
theorem pagination_85_page2 (current : List CloudinaryResource)
    (oracle : DetailOracle) (st : HState)
    (hlen : current.length = 85)
    (hres : st.resources = some current)
    (hmiss : st.images.bind (fun pc => pcLookup pc 2) = none)
    (hok : ∀ item ∈ pageSlice current 2, ∃ res img,
      oracle item.asset_id = Except.ok res ∧ mkImage item res = some img) :
    (handleRoot current oracle st 2 false).fetched =
      ((current.drop 40).take 40).map (·.asset_id) ∧
    ∃ imgs, (handleRoot current oracle st 2 false).response =
      Except.ok ⟨imgs, ⟨2, 40, 3, 85⟩⟩ := by
  obtain ⟨⟨imgs, himgs⟩, htr⟩ :=
    processResources_ok_trace oracle (pageSlice current 2) hok
  have hpr : processResources oracle (pageSlice current 2) =
      (Except.ok imgs, (pageSlice current 2).map (·.asset_id)) := by
    rw [Prod.ext_iff]
    exact ⟨himgs, htr⟩
  have htp : totalPagesOf current.length = 3 := by rw [hlen]; rfl
  simp only [handleRoot]
  have hst1 : (if st.resources ≠ some current ∨ false = true then
      (⟨some current, some []⟩ : HState) else st) = st := if_neg (by simp [hres])
  rw [hst1, hmiss]
  have hcond : (none : Option (List Image)).isNone = true ∧ 0 < (2 : Int) ∧
      (2 : Int) ≤ ((totalPagesOf current.length : Nat) : Int) :=
    ⟨rfl, by decide, by rw [htp]; decide⟩
  rw [if_pos hcond, hpr]
  constructor
  · rfl
  · refine ⟨imgs, ?_⟩
    rw [htp, hlen]
    rfl

/-- Claim C10: on a cache miss for a valid page, the write-back stores the
previous page mapping merged with the new entry: the stored cache afterwards
maps the requested page to the freshly processed images, and every other
page key to exactly the value it had before the write. -/
theorem writeback_preserves_other_pages (current : List CloudinaryResource)
    (oracle : DetailOracle) (st : HState) (page : Int) (imgs : List Image)
    (tr : List String)
    (hres : st.resources = some current)
    (hmiss : st.images.bind (fun pc => pcLookup pc page) = none)
    (hvalid : 0 < page ∧ page ≤ (totalPagesOf current.length : Int))
    (hok : processResources oracle (pageSlice current page) = (Except.ok imgs, tr)) :
    ∃ pc, (handleRoot current oracle st page false).state.images = some pc ∧
      pcLookup pc page = some imgs ∧
      ∀ q, q ≠ page → pcLookup pc q = pcLookup (st.images.getD []) q := by
  simp only [handleRoot]
  have hst1 : (if st.resources ≠ some current ∨ false = true then
      (⟨some current, some []⟩ : HState) else st) = st := if_neg (by simp [hres])
  rw [hst1, hmiss]
  have hcond : (none : Option (List Image)).isNone = true ∧ 0 < page ∧
      page ≤ ((totalPagesOf current.length : Nat) : Int) := ⟨rfl, hvalid⟩
  rw [if_pos hcond, hok]
  exact ⟨mergePage (st.images.getD []) page imgs, rfl,
    pcLookup_mergePage_self _ _ _, fun q hq => pcLookup_mergePage_other _ _ _ _ hq⟩

theorem handleRoot_preserves_cacheKeysValid (current : List CloudinaryResource)
    (oracle : DetailOracle) (st : HState) (page : Int) (force : Bool)
    (h : cacheKeysValid st) :
    cacheKeysValid (handleRoot current oracle st page force).state := by
  simp only [handleRoot]
  by_cases hc : st.resources ≠ some current ∨ force = true
  · rw [if_pos hc]
    simp only [pcLookup, Option.some_bind, Option.isNone_none, true_and]
    by_cases hpage : 0 < page ∧ page ≤ ((totalPagesOf current.length : Nat) : Int)
    · rw [if_pos hpage]
      rcases hpr : processResources oracle (pageSlice current page) with ⟨res1, tr⟩
      cases res1 with
      | error e =>
        intro s hs q l hl
        have hl2 : pcLookup ([] : PageCache) q = some l := hl
        simp [pcLookup] at hl2
      | ok imgs =>
        intro s hs q l hl
        have hs2 : some current = some s := hs
        injection hs2 with hs2
        subst hs2
        have hl2 : pcLookup (mergePage [] page imgs) q = some l := hl
        rw [show mergePage [] page imgs = [(page, imgs)] from rfl] at hl2
        simp only [pcLookup] at hl2
        split at hl2
        next heq =>
          subst heq
          exact hpage
        next heq => simp [pcLookup] at hl2
    · rw [if_neg hpage]
      intro s hs q l hl
      have hl2 : pcLookup ([] : PageCache) q = some l := hl
      simp [pcLookup] at hl2
  · rw [if_neg hc]
    push_neg at hc
    obtain ⟨hres, -⟩ := hc
    cases hcache : st.images.bind (fun pc => pcLookup pc page) with
    | some l =>
      have hcond : ¬((some l).isNone = true ∧ 0 < page ∧
          page ≤ ((totalPagesOf current.length : Nat) : Int)) := by simp
      rw [if_neg hcond]
      exact h
    | none =>
      by_cases hpage : 0 < page ∧ page ≤ ((totalPagesOf current.length : Nat) : Int)
      · have hcond : (none : Option (List Image)).isNone = true ∧ 0 < page ∧
            page ≤ ((totalPagesOf current.length : Nat) : Int) := ⟨rfl, hpage⟩
        rw [if_pos hcond]
        rcases hpr : processResources oracle (pageSlice current page) with ⟨res1, tr⟩
        cases res1 with
        | error e => exact h
        | ok imgs =>
          intro s hs q l hl
          have hs2 : st.resources = some s := hs
          rw [hres] at hs2
          injection hs2 with hs2
          subst hs2
          have hl2 : pcLookup (mergePage (st.images.getD []) page imgs) q = some l := hl
          by_cases hq : q = page
          · subst hq
            exact hpage
          · rw [pcLookup_mergePage_other _ _ _ _ hq] at hl2
            exact h current hres q l hl2
      · have hcond : ¬((none : Option (List Image)).isNone = true ∧ 0 < page ∧
            page ≤ ((totalPagesOf current.length : Nat) : Int)) := by
          rintro ⟨-, h2⟩
          exact hpage h2
        rw [if_neg hcond]
        exact h

/-- Claim C4 (amended): normalization picks the lowercased first element of
the 4th color swatch (index 3) when it is present; with fewer than 4
swatches the main revision (`worker.ts`) falls back to `"#fff"` while the
`part_000` revision falls back to `"transparent"`. (The original claim —
that the main revision uses the `"transparent"` sentinel — is refuted
separately at a concrete resource.) -/
theorem bg_swatch_rule (colors : Option (List (List String))) :
    ((colors.getD []).length < 4 →
      bgColorWorker colors = "#fff" ∧ bgColorPart000 colors = some "transparent") ∧
    (∀ cs c rest, colors = some cs → cs.get? 3 = some (c :: rest) →
      bgColorWorker colors = strLower c ∧ bgColorPart000 colors = some (strLower c)) := by
  constructor
  · intro hlt
    cases colors with
    | none => exact ⟨rfl, rfl⟩
    | some cs =>
      simp only [Option.getD_some] at hlt
      have h3 : cs.get? 3 = none := List.get?_eq_none.mpr (by omega)
      constructor
      · unfold bgColorWorker
        rw [show (some cs >>= fun cs => cs.get? 3) = cs.get? 3 from rfl, h3]
        rfl
      · simp only [bgColorPart000]
        rw [if_neg (by omega)]
  · intro cs c rest hc h3
    subst hc
    constructor
    · unfold bgColorWorker
      rw [show (some cs >>= fun cs => cs.get? 3) = cs.get? 3 from rfl, h3]
      rfl
    · have hlen : cs.length > 3 := by
        by_contra hle
        rw [List.get?_eq_none.mpr (by omega)] at h3
        exact absurd h3 (by simp)
      simp only [bgColorPart000]
      rw [if_pos hlen, h3]
      rfl

/-- Counterexample to claim C4 as stated: processing a resource with fewer
than 4 swatches through the main revision's normalizer yields
`backgroundColor = "#fff"`, not the sentinel `"transparent"`. -/
theorem bg_fallback_counterexample :
    ∃ img, (processResources (fun _ => Except.ok wResNC) [wResNC]).1 =
        Except.ok [img] ∧
      img.backgroundColor = "#fff" ∧ img.backgroundColor ≠ "transparent" := by
  refine ⟨(mkImage wResNC wResNC).getD wImg, rfl, rfl, by decide⟩

/-- Claim C7: the two brightness-classifier variants — the weighted-luminance
formula of `utils.ts` and the HSL-lightness variant of `part_001` — are not
extensionally equal: on the well-formed 6-digit hex color `ffff00` (yellow)
the weighted formula says light and the HSL formula does not. -/
theorem brightness_classifiers_differ :
    ∃ s : List Char, wellFormedHexChars s = true ∧ s.length = 6 ∧
      invertColorChars s ≠ invertColorHslChars s := by
  refine ⟨"ffff00".data, by decide, by decide, ?_⟩
  have h1 : invertColorChars "ffff00".data = true := by decide
  have h2 : invertColorHslChars "ffff00".data = hslLight 255 255 0 := rfl
  have h3 : hslLight 255 255 0 = false := by
    unfold hslLight rgbToHsl
    norm_num [max_def, min_def]
  rw [h1, h2, h3]
  decide

/-- Counterexample to claim C8 as stated: the 6-character string `"ffff f"`
is not a well-formed hex color, yet `invertColor` returns `true` on it,
because `parseInt(" f", 16)` skips the leading whitespace and parses `15`. -/
theorem invertColor_malformed_counterexample :
    wellFormedHexChars "ffff f".data = false ∧
      invertColorChars "ffff f".data = true :=
  ⟨by decide, by decide⟩

theorem invalidation_resets_cache_witness :
    (handleRoot [wRes] wOracle ⟨none, some [(1, [wImg])]⟩ 1 true).state.resources =
      some [wRes] ∧
    (∀ q l, pcLookup ((handleRoot [wRes] wOracle ⟨none, some [(1, [wImg])]⟩ 1
        true).state.images.getD []) q = some l →
      q = 1 ∧ (processResources wOracle (pageSlice [wRes] 1)).1 = Except.ok l) ∧
    (∀ res, (handleRoot [wRes] wOracle ⟨none, some [(1, [wImg])]⟩ 1 true).response =
        Except.ok res →
      res.images = [] ∨
        (processResources wOracle (pageSlice [wRes] 1)).1 = Except.ok res.images) :=
  invalidation_resets_cache [wRes] wOracle ⟨none, some [(1, [wImg])]⟩ 1 true
    (Or.inr rfl)

theorem cache_hit_returns_verbatim_witness :
    handleRoot [wRes] wOracle ⟨some [wRes], some [(1, [wImg])]⟩ 1 false =
      ⟨Except.ok ⟨[wImg], ⟨1, ITEMS_PER_PAGE, totalPagesOf [wRes].length,
        [wRes].length⟩⟩, ⟨some [wRes], some [(1, [wImg])]⟩, []⟩ :=
  cache_hit_returns_verbatim [wRes] wOracle ⟨some [wRes], some [(1, [wImg])]⟩ 1
    [wImg] rfl rfl

theorem out_of_range_page_empty_witness :
    (handleRoot [wRes] wOracle ⟨some [wRes], none⟩ 0 false).response =
      Except.ok ⟨[], ⟨0, ITEMS_PER_PAGE, totalPagesOf [wRes].length,
        [wRes].length⟩⟩ ∧
    (handleRoot [wRes] wOracle ⟨some [wRes], none⟩ 0 false).fetched = [] :=
  out_of_range_page_empty [wRes] wOracle ⟨some [wRes], none⟩ 0 false
    (by intro s hs q l hl; simp [pcLookup] at hl)
    (Or.inl (by decide))

theorem bg_swatch_rule_witness :
    (bgColorWorker (some [["a"], [], [], ["#1A2B3C", "x"]]) = strLower "#1A2B3C" ∧
      bgColorPart000 (some [["a"], [], [], ["#1A2B3C", "x"]]) =
        some (strLower "#1A2B3C")) ∧
    (bgColorWorker (some [["x"]]) = "#fff" ∧
      bgColorPart000 (some [["x"]]) = some "transparent") :=
  ⟨(bg_swatch_rule (some [["a"], [], [], ["#1A2B3C", "x"]])).2
      [["a"], [], [], ["#1A2B3C", "x"]] "#1A2B3C" ["x"] rfl rfl,
    (bg_swatch_rule (some [["x"]])).1 (by decide)⟩

theorem processResources_failFast_witness :
    (processResources wOracleErr [wRes]).1 = Except.error ⟨500, "Not Found"⟩ ∧
    (processResources wOracleErr [wRes]).2 =
      ([wRes].take (0 + 1)).map (·.asset_id) :=
  processResources_failFast wOracleErr [wRes] 0 ⟨404, "Not Found"⟩ (by decide)
    rfl (fun i hi => absurd hi (by omega))

theorem pagination_85_page2_witness :
    (handleRoot (List.replicate 85 wRes) wOracle
      ⟨some (List.replicate 85 wRes), none⟩ 2 false).fetched =
      (((List.replicate 85 wRes).drop 40).take 40).map (·.asset_id) ∧
    ∃ imgs, (handleRoot (List.replicate 85 wRes) wOracle
      ⟨some (List.replicate 85 wRes), none⟩ 2 false).response =
      Except.ok ⟨imgs, ⟨2, 40, 3, 85⟩⟩ :=
  pagination_85_page2 (List.replicate 85 wRes) wOracle
    ⟨some (List.replicate 85 wRes), none⟩ rfl rfl rfl
    (by
      intro item hitem
      have hitem2 : item ∈ ((List.replicate 85 wRes).drop 40).take 40 := hitem
      have hrep : item ∈ List.replicate 85 wRes :=
        List.mem_of_mem_drop (List.mem_of_mem_take hitem2)
      rcases List.eq_of_mem_replicate hrep with rfl
      exact ⟨wRes, (mkImage wRes wRes).getD wImg, rfl, rfl⟩)

theorem invertColor_eval_witness :
    ∃ r g b : Nat, specRGB "#1af".data = some (r, g, b) ∧
      invertColorChars "#1af".data =
        decide (186000 < 299 * (r : Int) + 587 * (g : Int) + 114 * (b : Int)) :=
  invertColor_eval_of_wellFormed "#1af".data (by decide)

theorem transform_host_stable_witness :
    hostOf "https://images.slovyagin.com/sample.avif?h=900&w=900".data =
      some "images.slovyagin.com".data ∧
    (hasSizeParams "https://images.slovyagin.com/sample.avif?h=900&w=900".data =
        true ↔ ∃ n, (some 900 : Option Int) = some n ∧ n ≠ 0) ∧
    ∃ o2, transformCloudinaryUrlChars
        "https://images.slovyagin.com/sample.avif?h=900&w=900".data (some 700) =
        some o2 ∧
      hostOf o2 =
        hostOf "https://images.slovyagin.com/sample.avif?h=900&w=900".data ∧
      pathOf o2 =
        pathOf "https://images.slovyagin.com/sample.avif?h=900&w=900".data :=
  transform_host_stable_and_size_params
    "https://res.cloudinary.com/demo/image/upload/sample.jpg".data
    "https://images.slovyagin.com/sample.avif?h=900&w=900".data
    (some 900) (some 700) (by decide)

theorem writeback_preserves_other_pages_witness :
    ∃ pc, (handleRoot [wRes] wOracle ⟨some [wRes], some [(2, [wImg])]⟩ 1
        false).state.images = some pc ∧
      pcLookup pc 1 =
        some ((processResources wOracle (pageSlice [wRes] 1)).1.toOption.getD []) ∧
      ∀ q, q ≠ 1 → pcLookup pc q =
        pcLookup ((some [(2, [wImg])] : Option PageCache).getD []) q :=
  writeback_preserves_other_pages [wRes] wOracle ⟨some [wRes], some [(2, [wImg])]⟩ 1
    ((processResources wOracle (pageSlice [wRes] 1)).1.toOption.getD [])
    ((processResources wOracle (pageSlice [wRes] 1)).2)
    rfl rfl ⟨by decide, by decide⟩ rfl

end BuildImages
